import Mathlib

/-!
Verification of the hybrid retrieval fusion engine of `support-ticket-search`
(files `src/utils.py`, `src/search.py`, `src/cli.py`, `app.py`).

Scores are modelled by exact rationals (`ℚ`); document ids by `String`.
Python dicts are modelled as insertion-ordered association lists: assigning to
an existing key updates its value in place (keeping its position), assigning a
fresh key appends it.  Python's `list.sort(key=..., reverse=True)` is a stable
descending sort, modelled by `List.insertionSort` with the relation
"left score ≥ right score", which is stable in exactly the same sense.
-/

namespace HybridSearch

/-- Association-list model of a Python `dict` keyed by strings. -/
abbrev Dict (β : Type) := List (String × β)

/-- Python dict assignment `d[k] = v`: update in place if the key exists (keeping the
key's insertion position), else append the new binding at the end. -/
def dictInsert {β : Type} : Dict β → String → β → Dict β
  | [], k, v => [(k, v)]
  | p :: d, k, v => if p.1 = k then (p.1, v) :: d else p :: dictInsert d k v

/-- Python dict lookup `d.get(k, default)`. -/
def dget {β : Type} (d : Dict β) (k : String) (default : β) : β :=
  match d.find? (fun p => p.1 == k) with
  | some p => p.2
  | none => default

/-- The key list of a dict, in insertion order. -/
def dkeys {β : Type} (d : Dict β) : List String := d.map Prod.fst

/-- A dict built by a Python dict comprehension `{q[0]: f q for q in l}`. -/
def buildDict (f : String × ℚ → ℚ) (l : List (String × ℚ)) : Dict ℚ :=
  l.foldl (fun d q => dictInsert d q.1 (f q)) []

/-- Binary minimum on `ℚ`, written out so the kernel can evaluate it. -/
def qmin (a b : ℚ) : ℚ := if a ≤ b then a else b

/-- Binary maximum on `ℚ`, written out so the kernel can evaluate it. -/
def qmax (a b : ℚ) : ℚ := if a ≤ b then b else a

/-- The value `lo = min(scores)` in `minmax_norm` (the fold starts from the first score,
so for a nonempty list this is the minimum of the scores). -/
def loOf (results : List (String × ℚ)) : ℚ :=
  (results.map Prod.snd).foldl qmin ((results.map Prod.snd).headD 0)

/-- The value `hi = max(scores)` in `minmax_norm`. -/
def hiOf (results : List (String × ℚ)) : ℚ :=
  (results.map Prod.snd).foldl qmax ((results.map Prod.snd).headD 0)

/-- Function `minmax_norm` from `src/utils.py`: min–max normalisation of a ranked list
into a dict mapping each doc id to a value in `[0,1]`. -/
def minmax_norm (results : List (String × ℚ)) : Dict ℚ :=
  if results.isEmpty then []
  else if hiOf results = loOf results then
    buildDict (fun _ => 1) results
  else
    buildDict (fun q => (q.2 - loOf results) / (hiOf results - loOf results)) results

/-- A fused result tuple `(doc_id, score, bm25_component, vec_component)`. -/
abbrev Entry := String × ℚ × ℚ × ℚ

/-- The fused score component of an `Entry`. -/
def score (e : Entry) : ℚ := e.2.1

/-- The comparison used by `blended.sort(key=lambda x: x[1], reverse=True)`:
`a` may precede `b` iff `a`'s score is at least `b`'s. -/
def scoreGE (a b : Entry) : Prop := score b ≤ score a

instance : DecidableRel scoreGE := fun a b => inferInstanceAs (Decidable (score b ≤ score a))

instance : IsTotal Entry scoreGE := ⟨fun a b => le_total (score b) (score a)⟩

instance : IsTrans Entry scoreGE := ⟨fun _ _ _ h1 h2 => le_trans h2 h1⟩

/-- Stable descending sort by fused score, the model of
`blended.sort(key=lambda x: x[1], reverse=True)`. -/
def sortByScore (l : List Entry) : List Entry := List.insertionSort scoreGE l

/-- Function `blend_scores` from `src/search.py`: min–max normalise both lists, take the
union of their ids, weight and add the component scores, and sort the result
descending by blended score.  Python iterates over `set(bm25_norm) | set(vec_norm)`
in an unspecified order; since the subsequent sort is the only order-relevant
step visible to callers, the union is modelled in first-seen order
(lexical keys first, then the new vector keys). -/
def blend_scores (bm25_results vec_results : List (String × ℚ))
    (w_bm25 w_vec : ℚ) : List Entry :=
  sortByScore
    ((dkeys (minmax_norm bm25_results)
        ++ (dkeys (minmax_norm vec_results)).filter
            (fun doc_id => !decide (doc_id ∈ dkeys (minmax_norm bm25_results)))).map
      (fun doc_id =>
        (doc_id,
         w_bm25 * dget (minmax_norm bm25_results) doc_id 0
           + w_vec * dget (minmax_norm vec_results) doc_id 0,
         dget (minmax_norm bm25_results) doc_id 0,
         dget (minmax_norm vec_results) doc_id 0)))

/-- One `for rank, (doc_id, _) in enumerate(results, start=rank0)` pass of
`rrf_blend`: `scores[doc_id] = scores.get(doc_id, 0.0) + 1.0 / (k + rank)`. -/
def rrf_fold (k : ℚ) : List (String × ℚ) → ℕ → Dict ℚ → Dict ℚ
  | [], _, scores => scores
  | (doc_id, _) :: rest, rank, scores =>
      rrf_fold k rest (rank + 1)
        (dictInsert scores doc_id (dget scores doc_id 0 + 1 / (k + (rank : ℚ))))

/-- Function `rrf_blend` from `src/search.py`: reciprocal-rank fusion with constant `k`
(an `int` in the source, default 60), followed by the same stable descending
sort; component scores are reported as 0. -/
def rrf_blend (bm25_results vec_results : List (String × ℚ)) (k : ℚ) : List Entry :=
  sortByScore
    ((rrf_fold k vec_results 1 (rrf_fold k bm25_results 1 [])).map
      (fun p => (p.1, p.2, (0 : ℚ), (0 : ℚ))))

/-- Function `rerank` from `src/cli.py`.  The optional `sentence_transformers.CrossEncoder`
is modelled as `scorer : Option (String → String → ℚ)` (query, document text ↦
relevance score): `none` is the import failing, in which case the input list is
returned unchanged; otherwise every candidate's document text is scored against
the query and the list is rebuilt sorted descending by the new scores with the
component scores zeroed.  `docs` models the corpus lookup (absent ids give empty
text). -/
def rerank (blended : List Entry) (query : String) (docs : Dict String)
    (scorer : Option (String → String → ℚ)) : List Entry :=
  match scorer with
  | none => blended
  | some model =>
      sortByScore
        (blended.map (fun e => (e.1, model query (dget docs e.1 ""), (0 : ℚ), (0 : ℚ))))

/-- The CLI `--blend` choice, `weighted` or `rrf`. -/
inductive BlendMode
  | weighted
  | rrf
deriving DecidableEq

/-- The ranked-list pipeline of `cmd_search` in `src/cli.py`, from the two
backend result lists to the printed list: fuse with the selected strategy,
optionally rerank the full fused list, then truncate to `top_n`. -/
def cmd_search_ranked (bm25 vec : List (String × ℚ)) (blend : BlendMode)
    (w_bm25 w_vec rrf_k : ℚ) (rerank_enabled : Bool) (query : String)
    (docs : Dict String) (scorer : Option (String → String → ℚ))
    (top_n : ℕ) : List Entry :=
  let blended :=
    match blend with
    | .rrf => rrf_blend bm25 vec rrf_k
    | .weighted => blend_scores bm25 vec w_bm25 w_vec
  let blended' := if rerank_enabled then rerank blended query docs scorer else blended
  blended'.take top_n

/-- The ranked-list pipeline of the Search page in `app.py`: in the source the
`if use_rerank:` block is nested inside the `else:` (weighted) branch, so under
`rrf` the reranker is never invoked. -/
def app_search_ranked (bm25 vec : List (String × ℚ)) (blend : BlendMode)
    (w_bm25 w_vec rrf_k : ℚ) (rerank_enabled : Bool) (query : String)
    (docs : Dict String) (scorer : Option (String → String → ℚ))
    (top_n : ℕ) : List Entry :=
  match blend with
  | .rrf => (rrf_blend bm25 vec rrf_k).take top_n
  | .weighted =>
      let blended := blend_scores bm25 vec w_bm25 w_vec
      let blended' := if rerank_enabled then rerank blended query docs scorer else blended
      blended'.take top_n

/-- The reciprocal-rank loop of `cmd_eval` in `src/cli.py`:
`rr = 0.0; for idx, doc_id in enumerate(top_ids, start=1): if doc_id in relevant: rr = 1.0/idx; break`. -/
def reciprocal_rank (relevant : List String) : List String → ℕ → ℚ
  | [], _ => 0
  | doc_id :: rest, idx =>
      if doc_id ∈ relevant then 1 / (idx : ℚ) else reciprocal_rank relevant rest (idx + 1)

/-- The metric computation of `cmd_eval` in `src/cli.py`, abstracted over the
per-query retrieval: each query is given as its relevant-id set together with
the blended list the pipeline produced for it.  Returns `(MRR, Recall@top_n)`. -/
def cmd_eval_metrics (queries : List (List String × List Entry)) (top_n : ℕ) : ℚ × ℚ :=
  let rrs := queries.map
    (fun q => reciprocal_rank q.1 (((q.2.take top_n)).map Prod.fst) 1)
  let total_rr := rrs.foldl (· + ·) 0
  let hit := (rrs.filter (fun rr => decide (0 < rr))).length
  (total_rr / (queries.length : ℚ), (hit : ℚ) / (queries.length : ℚ))

/-! ### Dictionary lemmas -/

theorem dget_nil {β : Type} (k : String) (w : β) : dget ([] : Dict β) k w = w := rfl

theorem dget_cons {β : Type} (p : String × β) (d : Dict β) (k : String) (w : β) :
    dget (p :: d) k w = if p.1 = k then p.2 else dget d k w := by
  by_cases h : p.1 = k
  · simp [dget, List.find?, h]
  · simp only [dget, List.find?]
    rw [show (p.1 == k) = false by simpa using h]
    simp [h]

theorem dget_dictInsert {β : Type} (d : Dict β) (k a : String) (v w : β) :
    dget (dictInsert d k v) a w = if a = k then v else dget d a w := by
  induction d with
  | nil =>
      by_cases h : a = k
      · simp [dictInsert, dget_cons, dget_nil, h]
      · simp only [dictInsert, dget_cons, dget_nil, if_neg h]
        rw [if_neg (fun h' => h h'.symm)]
  | cons q d ih =>
      by_cases hqk : q.1 = k
      · rw [show dictInsert (q :: d) k v = (q.1, v) :: d from if_pos hqk]
        by_cases hak : a = k
        · rw [dget_cons]
          simp [hqk, hak]
        · rw [dget_cons, dget_cons]
          have : ¬ q.1 = a := fun h => hak (hqk ▸ h.symm ▸ rfl)
          simp [this, hak]
      · rw [show dictInsert (q :: d) k v = q :: dictInsert d k v from if_neg hqk]
        rw [dget_cons, dget_cons]
        by_cases hqa : q.1 = a
        · have : ¬ a = k := fun h => hqk (h ▸ hqa)
          simp [hqa, this]
        · simp [hqa, ih]

theorem mem_dictInsert {β : Type} {d : Dict β} {k : String} {v : β} {p : String × β}
    (hp : p ∈ dictInsert d k v) : p ∈ d ∨ (p.1 = k ∧ p.2 = v) := by
  induction d with
  | nil =>
      simp only [dictInsert, List.mem_singleton] at hp
      subst hp
      exact Or.inr ⟨rfl, rfl⟩
  | cons q d ih =>
      by_cases hqk : q.1 = k
      · rw [show dictInsert (q :: d) k v = (q.1, v) :: d from if_pos hqk] at hp
        rcases List.mem_cons.mp hp with h | h
        · subst h
          exact Or.inr ⟨hqk, rfl⟩
        · exact Or.inl (List.mem_cons_of_mem q h)
      · rw [show dictInsert (q :: d) k v = q :: dictInsert d k v from if_neg hqk] at hp
        rcases List.mem_cons.mp hp with h | h
        · exact Or.inl (h ▸ List.mem_cons_self q d)
        · rcases ih h with h' | h'
          · exact Or.inl (List.mem_cons_of_mem q h')
          · exact Or.inr h'

theorem mem_dkeys_dictInsert {β : Type} {d : Dict β} {k a : String} {v : β} :
    a ∈ dkeys (dictInsert d k v) ↔ a ∈ dkeys d ∨ a = k := by
  induction d with
  | nil => simp [dictInsert, dkeys]
  | cons q d ih =>
      by_cases hqk : q.1 = k
      · rw [show dictInsert (q :: d) k v = (q.1, v) :: d from if_pos hqk]
        simp only [dkeys, List.map_cons, List.mem_cons]
        constructor
        · rintro (h | h)
          · exact Or.inl (Or.inl h)
          · exact Or.inl (Or.inr h)
        · rintro ((h | h) | h)
          · exact Or.inl h
          · exact Or.inr h
          · exact Or.inl (hqk ▸ h)
      · rw [show dictInsert (q :: d) k v = q :: dictInsert d k v from if_neg hqk]
        simp only [dkeys, List.map_cons, List.mem_cons] at ih ⊢
        rw [ih]
        tauto

theorem dkeys_nodup_dictInsert {β : Type} {d : Dict β} (k : String) (v : β)
    (hd : (dkeys d).Nodup) : (dkeys (dictInsert d k v)).Nodup := by
  induction d with
  | nil => simp [dictInsert, dkeys]
  | cons q d ih =>
      simp only [dkeys, List.map_cons, List.nodup_cons] at hd
      by_cases hqk : q.1 = k
      · rw [show dictInsert (q :: d) k v = (q.1, v) :: d from if_pos hqk]
        simpa [dkeys, List.nodup_cons] using hd
      · rw [show dictInsert (q :: d) k v = q :: dictInsert d k v from if_neg hqk]
        simp only [dkeys, List.map_cons, List.nodup_cons]
        refine ⟨fun hmem => ?_, ih hd.2⟩
        rcases mem_dkeys_dictInsert.mp hmem with h | h
        · exact hd.1 h
        · exact hqk h

theorem dget_of_mem_nodup {β : Type} {d : Dict β} {p : String × β} (w : β)
    (hd : (dkeys d).Nodup) (hp : p ∈ d) : dget d p.1 w = p.2 := by
  induction d with
  | nil => cases hp
  | cons q d ih =>
      simp only [dkeys, List.map_cons, List.nodup_cons] at hd
      rcases List.mem_cons.mp hp with h | h
      · subst h
        simp [dget_cons]
      · rw [dget_cons]
        have hne : ¬ q.1 = p.1 := fun he => hd.1 (he ▸ List.mem_map_of_mem Prod.fst h)
        simp only [if_neg hne]
        exact ih hd.2 h

theorem dget_or {β : Type} (d : Dict β) (k : String) (w : β) :
    dget d k w = w ∨ ∃ p ∈ d, p.1 = k ∧ p.2 = dget d k w := by
  unfold dget
  cases hfind : d.find? (fun p => p.1 == k) with
  | none => exact Or.inl rfl
  | some p =>
      refine Or.inr ⟨p, List.mem_of_find?_eq_some hfind, ?_, rfl⟩
      have := List.find?_some hfind
      simpa using this

theorem dget_not_mem_dkeys {β : Type} {d : Dict β} {k : String} (w : β)
    (hk : k ∉ dkeys d) : dget d k w = w := by
  induction d with
  | nil => rfl
  | cons q d ih =>
      simp only [dkeys, List.map_cons, List.mem_cons] at hk
      push_neg at hk
      rw [dget_cons, if_neg (fun h => hk.1 h.symm)]
      exact ih hk.2

/-! ### Dict-comprehension (`buildDict`) lemmas -/

theorem foldl_dictInsert_mem (f : String × ℚ → ℚ) :
    ∀ (l : List (String × ℚ)) (d0 : Dict ℚ) (p : String × ℚ),
      p ∈ l.foldl (fun d q => dictInsert d q.1 (f q)) d0 →
      p ∈ d0 ∨ ∃ q ∈ l, p.1 = q.1 ∧ p.2 = f q := by
  intro l
  induction l with
  | nil => intro d0 p hp; exact Or.inl hp
  | cons q l ih =>
      intro d0 p hp
      rcases ih (dictInsert d0 q.1 (f q)) p hp with h | h
      · rcases mem_dictInsert h with h' | h'
        · exact Or.inl h'
        · exact Or.inr ⟨q, List.mem_cons_self q l, h'⟩
      · rcases h with ⟨q', hq', hpq'⟩
        exact Or.inr ⟨q', List.mem_cons_of_mem q hq', hpq'⟩

theorem foldl_dictInsert_keys (f : String × ℚ → ℚ) :
    ∀ (l : List (String × ℚ)) (d0 : Dict ℚ) (a : String),
      a ∈ dkeys (l.foldl (fun d q => dictInsert d q.1 (f q)) d0) ↔
      a ∈ dkeys d0 ∨ a ∈ l.map Prod.fst := by
  intro l
  induction l with
  | nil => intro d0 a; simp
  | cons q l ih =>
      intro d0 a
      rw [List.foldl_cons, ih, mem_dkeys_dictInsert]
      simp only [List.map_cons, List.mem_cons]
      tauto

theorem foldl_dictInsert_nodup (f : String × ℚ → ℚ) :
    ∀ (l : List (String × ℚ)) (d0 : Dict ℚ), (dkeys d0).Nodup →
      (dkeys (l.foldl (fun d q => dictInsert d q.1 (f q)) d0)).Nodup := by
  intro l
  induction l with
  | nil => intro d0 h; exact h
  | cons q l ih => intro d0 h; exact ih _ (dkeys_nodup_dictInsert _ _ h)

theorem buildDict_mem (f : String × ℚ → ℚ) (l : List (String × ℚ)) (p : String × ℚ)
    (hp : p ∈ buildDict f l) : ∃ q ∈ l, p.1 = q.1 ∧ p.2 = f q := by
  rcases foldl_dictInsert_mem f l [] p hp with h | h
  · cases h
  · exact h

theorem buildDict_keys (f : String × ℚ → ℚ) (l : List (String × ℚ)) (a : String) :
    a ∈ dkeys (buildDict f l) ↔ a ∈ l.map Prod.fst := by
  rw [buildDict, foldl_dictInsert_keys]
  simp [dkeys]

/-! ### `min`/`max` fold lemmas -/

theorem foldl_min_le_init : ∀ (l : List ℚ) (a : ℚ), l.foldl min a ≤ a := by
  intro l
  induction l with
  | nil => intro a; exact le_refl a
  | cons b l ih => intro a; exact le_trans (ih (min a b)) (min_le_left a b)

theorem foldl_min_le_mem : ∀ (l : List ℚ) (a s : ℚ), s ∈ l → l.foldl min a ≤ s := by
  intro l
  induction l with
  | nil => intro a s hs; cases hs
  | cons b l ih =>
      intro a s hs
      rcases List.mem_cons.mp hs with h | h
      · subst h
        exact le_trans (foldl_min_le_init l (min a s)) (min_le_right a s)
      · exact ih (min a b) s h

theorem init_le_foldl_max : ∀ (l : List ℚ) (a : ℚ), a ≤ l.foldl max a := by
  intro l
  induction l with
  | nil => intro a; exact le_refl a
  | cons b l ih => intro a; exact le_trans (le_max_left a b) (ih (max a b))

theorem mem_le_foldl_max : ∀ (l : List ℚ) (a s : ℚ), s ∈ l → s ≤ l.foldl max a := by
  intro l
  induction l with
  | nil => intro a s hs; cases hs
  | cons b l ih =>
      intro a s hs
      rcases List.mem_cons.mp hs with h | h
      · subst h
        exact le_trans (le_max_right a s) (init_le_foldl_max l (max a s))
      · exact ih (max a b) s h

theorem foldl_min_mem : ∀ (l : List ℚ) (a : ℚ), l.foldl min a = a ∨ l.foldl min a ∈ l := by
  intro l
  induction l with
  | nil => intro a; exact Or.inl rfl
  | cons b l ih =>
      intro a
      rw [List.foldl_cons]
      rcases ih (min a b) with h | h
      · rcases min_cases a b with ⟨he, _⟩ | ⟨he, _⟩
        · exact Or.inl (h.trans he)
        · refine Or.inr ?_
          rw [h, he]
          exact List.mem_cons_self b l
      · exact Or.inr (List.mem_cons_of_mem b h)

theorem foldl_max_mem : ∀ (l : List ℚ) (a : ℚ), l.foldl max a = a ∨ l.foldl max a ∈ l := by
  intro l
  induction l with
  | nil => intro a; exact Or.inl rfl
  | cons b l ih =>
      intro a
      rw [List.foldl_cons]
      rcases ih (max a b) with h | h
      · rcases max_cases a b with ⟨he, _⟩ | ⟨he, _⟩
        · exact Or.inl (h.trans he)
        · refine Or.inr ?_
          rw [h, he]
          exact List.mem_cons_self b l
      · exact Or.inr (List.mem_cons_of_mem b h)

/-! ### `minmax_norm` lemmas -/

theorem qmin_eq_min : qmin = (min : ℚ → ℚ → ℚ) := by
  funext a b
  rw [qmin, min_def]

theorem qmax_eq_max : qmax = (max : ℚ → ℚ → ℚ) := by
  funext a b
  rw [qmax, max_def]

theorem loOf_eq (results : List (String × ℚ)) :
    loOf results = (results.map Prod.snd).foldl min ((results.map Prod.snd).headD 0) := by
  rw [loOf, qmin_eq_min]

theorem hiOf_eq (results : List (String × ℚ)) :
    hiOf results = (results.map Prod.snd).foldl max ((results.map Prod.snd).headD 0) := by
  rw [hiOf, qmax_eq_max]

theorem minmax_norm_nil : minmax_norm [] = [] := rfl

theorem loOf_le_mem {results : List (String × ℚ)} {s : ℚ}
    (hs : s ∈ results.map Prod.snd) : loOf results ≤ s := by
  rw [loOf_eq]
  exact foldl_min_le_mem _ _ _ hs

theorem mem_le_hiOf {results : List (String × ℚ)} {s : ℚ}
    (hs : s ∈ results.map Prod.snd) : s ≤ hiOf results := by
  rw [hiOf_eq]
  exact mem_le_foldl_max _ _ _ hs

theorem headD_mem_of_ne_nil {l : List ℚ} (h : l ≠ []) : l.headD 0 ∈ l := by
  cases l with
  | nil => exact absurd rfl h
  | cons a t => exact List.mem_cons_self a t

theorem loOf_mem {results : List (String × ℚ)} (h : results ≠ []) :
    loOf results ∈ results.map Prod.snd := by
  have hne : results.map Prod.snd ≠ [] := by
    simpa using h
  rw [loOf_eq]
  rcases foldl_min_mem (results.map Prod.snd) ((results.map Prod.snd).headD 0) with he | hm
  · rw [he]
    exact headD_mem_of_ne_nil hne
  · exact hm

theorem hiOf_mem {results : List (String × ℚ)} (h : results ≠ []) :
    hiOf results ∈ results.map Prod.snd := by
  have hne : results.map Prod.snd ≠ [] := by
    simpa using h
  rw [hiOf_eq]
  rcases foldl_max_mem (results.map Prod.snd) ((results.map Prod.snd).headD 0) with he | hm
  · rw [he]
    exact headD_mem_of_ne_nil hne
  · exact hm

theorem loOf_le_hiOf {results : List (String × ℚ)} (h : results ≠ []) :
    loOf results ≤ hiOf results :=
  le_trans (loOf_le_mem (hiOf_mem h)) (le_refl _)

theorem minmax_norm_input_ne_nil {results : List (String × ℚ)} {p : String × ℚ}
    (hp : p ∈ minmax_norm results) : results ≠ [] := by
  intro h
  subst h
  cases hp

theorem minmax_norm_mem_range {results : List (String × ℚ)} {p : String × ℚ}
    (hp : p ∈ minmax_norm results) : 0 ≤ p.2 ∧ p.2 ≤ 1 := by
  have hne := minmax_norm_input_ne_nil hp
  unfold minmax_norm at hp
  rw [if_neg (by simpa using hne)] at hp
  by_cases heq : hiOf results = loOf results
  · rw [if_pos heq] at hp
    rcases buildDict_mem _ _ _ hp with ⟨q, _, _, hval⟩
    rw [hval]
    norm_num
  · rw [if_neg heq] at hp
    rcases buildDict_mem _ _ _ hp with ⟨q, hq, _, hval⟩
    have hqs : q.2 ∈ results.map Prod.snd := List.mem_map_of_mem Prod.snd hq
    have hlo : loOf results ≤ q.2 := loOf_le_mem hqs
    have hhi : q.2 ≤ hiOf results := mem_le_hiOf hqs
    have hlt : loOf results < hiOf results :=
      lt_of_le_of_ne (loOf_le_hiOf hne) (fun h => heq h.symm)
    have hpos : 0 < hiOf results - loOf results := sub_pos.mpr hlt
    constructor
    · rw [hval]
      exact div_nonneg (sub_nonneg.mpr hlo) (le_of_lt hpos)
    · rw [hval]
      rw [div_le_one hpos]
      exact sub_le_sub_right hhi _

theorem minmax_norm_keys {results : List (String × ℚ)} {a : String} :
    a ∈ dkeys (minmax_norm results) ↔ a ∈ results.map Prod.fst := by
  unfold minmax_norm
  by_cases hne : results.isEmpty
  · rw [if_pos hne]
    have : results = [] := by
      cases results
      · rfl
      · cases hne
    subst this
    simp [dkeys]
  · rw [if_neg hne]
    by_cases heq : hiOf results = loOf results
    · rw [if_pos heq, buildDict_keys]
    · rw [if_neg heq, buildDict_keys]

theorem dget_minmax_norm_range (results : List (String × ℚ)) (a : String) :
    0 ≤ dget (minmax_norm results) a 0 ∧ dget (minmax_norm results) a 0 ≤ 1 := by
  rcases dget_or (minmax_norm results) a 0 with h | ⟨p, hp, _, hval⟩
  · rw [h]
    norm_num
  · rw [← hval]
    exact minmax_norm_mem_range hp

/-! ### Claim C1 -/

/-- C1: `minmax_norm` maps every document to a value in `[0,1]`; the empty input
yields the empty mapping; when all raw scores are equal (including a single
element) every entry maps to `1`; otherwise every entry of the output maps its
id to `(score - min) / (max - min)` for a score that id carries in the input. -/
theorem minmax_norm_spec (results : List (String × ℚ)) (p : String × ℚ)
    (hp : p ∈ minmax_norm results) :
    minmax_norm [] = [] ∧
    (0 ≤ p.2 ∧ p.2 ≤ 1) ∧
    ((∀ q ∈ results, ∀ q' ∈ results, q.2 = q'.2) → p.2 = 1) ∧
    (∀ lo hi : ℚ, lo ∈ results.map Prod.snd → (∀ s ∈ results.map Prod.snd, lo ≤ s) →
      hi ∈ results.map Prod.snd → (∀ s ∈ results.map Prod.snd, s ≤ hi) → lo ≠ hi →
      ∃ s, (p.1, s) ∈ results ∧ p.2 = (s - lo) / (hi - lo)) := by
  have hne := minmax_norm_input_ne_nil hp
  refine ⟨minmax_norm_nil, minmax_norm_mem_range hp, ?_, ?_⟩
  · intro hall
    have heq : hiOf results = loOf results := by
      rcases List.mem_map.mp (loOf_mem hne) with ⟨q1, hq1, hv1⟩
      rcases List.mem_map.mp (hiOf_mem hne) with ⟨q2, hq2, hv2⟩
      rw [← hv1, ← hv2]
      exact hall q2 hq2 q1 hq1
    unfold minmax_norm at hp
    rw [if_neg (by simpa using hne), if_pos heq] at hp
    rcases buildDict_mem _ _ _ hp with ⟨q, _, _, hval⟩
    exact hval
  · intro lo hi hlomem hlolb hhimem hhiub hlohi
    have hlo_eq : loOf results = lo :=
      le_antisymm (loOf_le_mem hlomem) (hlolb _ (loOf_mem hne))
    have hhi_eq : hiOf results = hi :=
      le_antisymm (hhiub _ (hiOf_mem hne)) (mem_le_hiOf hhimem)
    have hbranch : ¬ hiOf results = loOf results := by
      rw [hlo_eq, hhi_eq]
      exact fun h => hlohi h.symm
    unfold minmax_norm at hp
    rw [if_neg (by simpa using hne), if_neg hbranch] at hp
    rcases buildDict_mem _ _ _ hp with ⟨q, hq, hkey, hval⟩
    refine ⟨q.2, ?_, ?_⟩
    · have : (p.1, q.2) = q := by
        rw [hkey]
      rw [this]
      exact hq
    · rw [hval, hlo_eq, hhi_eq]

/-- Witness for C1 at `results = [("a",3),("b",5)]`, `p = ("b",1)`:
the normalized value of `"b"` lies in `[0,1]`. -/
theorem minmax_norm_spec_witness : (0 : ℚ) ≤ 1 ∧ (1 : ℚ) ≤ 1 :=
  (minmax_norm_spec [("a", 3), ("b", 5)] ("b", 1)
    (by norm_num [minmax_norm, loOf, hiOf, qmin, qmax, buildDict, dictInsert,
      (by decide : ¬ ("a" = "b"))])).2.1

/-! ### Sorting lemmas -/

theorem sortByScore_perm (l : List Entry) : List.Perm (sortByScore l) l :=
  List.perm_insertionSort scoreGE l

theorem mem_sortByScore {e : Entry} {l : List Entry} : e ∈ sortByScore l ↔ e ∈ l :=
  (sortByScore_perm l).mem_iff

theorem sortByScore_pairwise (l : List Entry) : (sortByScore l).Pairwise scoreGE :=
  List.sorted_insertionSort scoreGE l

/-! ### Claim C2 -/

/-- C2: the id set of `blend_scores` output is exactly the union of the input
id sets; every output entry's blended score is
`w_bm25 * bm25_norm.get(id, 0) + w_vec * vec_norm.get(id, 0)` and its component
scores are the two normalized scores; two empty inputs give an empty output. -/
theorem blend_scores_spec (bm25 vec : List (String × ℚ)) (w_bm25 w_vec : ℚ) :
    (∀ a : String, a ∈ (blend_scores bm25 vec w_bm25 w_vec).map Prod.fst ↔
        (a ∈ bm25.map Prod.fst ∨ a ∈ vec.map Prod.fst)) ∧
    (∀ e ∈ blend_scores bm25 vec w_bm25 w_vec,
        e.2.1 = w_bm25 * dget (minmax_norm bm25) e.1 0
            + w_vec * dget (minmax_norm vec) e.1 0 ∧
        e.2.2.1 = dget (minmax_norm bm25) e.1 0 ∧
        e.2.2.2 = dget (minmax_norm vec) e.1 0) ∧
    blend_scores [] [] w_bm25 w_vec = [] := by
  refine ⟨?_, ?_, rfl⟩
  · intro a
    unfold blend_scores
    constructor
    · intro hmem
      rcases List.mem_map.mp hmem with ⟨e, he, hfst⟩
      rcases List.mem_map.mp (mem_sortByScore.mp he) with ⟨doc_id, hid, hfe⟩
      have hid_a : doc_id = a := by
        rw [← hfst, ← hfe]
      subst hid_a
      rcases List.mem_append.mp hid with h | h
      · exact Or.inl (minmax_norm_keys.mp h)
      · exact Or.inr (minmax_norm_keys.mp (List.mem_of_mem_filter h))
    · intro hor
      have hin : a ∈ dkeys (minmax_norm bm25)
          ++ (dkeys (minmax_norm vec)).filter
              (fun doc_id => !decide (doc_id ∈ dkeys (minmax_norm bm25))) := by
        by_cases h1 : a ∈ dkeys (minmax_norm bm25)
        · exact List.mem_append.mpr (Or.inl h1)
        · rcases hor with h | h
          · exact absurd (minmax_norm_keys.mpr h) h1
          · refine List.mem_append.mpr (Or.inr (List.mem_filter.mpr
              ⟨minmax_norm_keys.mpr h, ?_⟩))
            simp [h1]
      exact List.mem_map.mpr
        ⟨(a, w_bm25 * dget (minmax_norm bm25) a 0 + w_vec * dget (minmax_norm vec) a 0,
          dget (minmax_norm bm25) a 0, dget (minmax_norm vec) a 0),
         mem_sortByScore.mpr (List.mem_map.mpr ⟨a, hin, rfl⟩), rfl⟩
  · intro e he
    unfold blend_scores at he
    rcases List.mem_map.mp (mem_sortByScore.mp he) with ⟨doc_id, _, hfe⟩
    rw [← hfe]
    exact ⟨rfl, rfl, rfl⟩

/-- Witness for C2: with both inputs empty, the blended output is empty. -/
theorem blend_scores_spec_witness : blend_scores [] [] 1 1 = [] :=
  (blend_scores_spec [] [] 1 1).2.2

/-! ### Claim C10 -/

/-- C10 (implicit): with non-negative weights, every blended score of
`blend_scores` lies in `[0, w_bm25 + w_vec]`, because each normalized
component lies in `[0,1]`. -/
theorem blend_scores_bounded (bm25 vec : List (String × ℚ)) (w_bm25 w_vec : ℚ)
    (h1 : 0 ≤ w_bm25) (h2 : 0 ≤ w_vec) (e : Entry)
    (he : e ∈ blend_scores bm25 vec w_bm25 w_vec) :
    0 ≤ e.2.1 ∧ e.2.1 ≤ w_bm25 + w_vec := by
  unfold blend_scores at he
  rcases List.mem_map.mp (mem_sortByScore.mp he) with ⟨doc_id, _, hfe⟩
  rcases dget_minmax_norm_range bm25 doc_id with ⟨hb0, hb1⟩
  rcases dget_minmax_norm_range vec doc_id with ⟨hv0, hv1⟩
  rw [← hfe]
  constructor
  · exact add_nonneg (mul_nonneg h1 hb0) (mul_nonneg h2 hv0)
  · exact add_le_add (mul_le_of_le_one_right h1 hb1) (mul_le_of_le_one_right h2 hv1)

/-! ### Claim C3 -/

/-- C3 counterexample: with `bm25 = [("b",1)]`, `vec = [("a",1)]`, `k = 60`,
both documents get the same RRF score `1/61`, yet the output lists `"b"`
before `"a"` although `"a" < "b"` — equal-score entries are NOT in ascending
document-id order (the sort is merely stable, with no id tie-break). -/
theorem fused_tie_not_id_sorted :
    rrf_blend [("b", (1 : ℚ))] [("a", 1)] 60 = [("b", 1/61, 0, 0), ("a", 1/61, 0, 0)] ∧
    ("a" : String) < "b" ∧
    ¬ (rrf_blend [("b", (1 : ℚ))] [("a", 1)] 60).Pairwise
        (fun x y : Entry => x.2.1 = y.2.1 → x.1 < y.1) := by
  have heval : rrf_blend [("b", (1 : ℚ))] [("a", 1)] 60
      = [("b", 1/61, 0, 0), ("a", 1/61, 0, 0)] := by
    norm_num [rrf_blend, rrf_fold, sortByScore, dictInsert, dget_cons, dget_nil,
      List.insertionSort, List.orderedInsert, scoreGE, score,
      (by decide : ¬ ("b" = "a")), (by decide : ¬ ("a" = "b"))]
  have hlt : ("a" : String) < "b" := by
    simp only [String.lt_iff_toList_lt, List.lt_iff_lex_lt]
    exact List.Lex.rel (by decide)
  refine ⟨heval, hlt, ?_⟩
  rw [heval]
  intro hpw
  rcases List.pairwise_cons.mp hpw with ⟨hrel, _⟩
  exact absurd (hrel _ (List.mem_cons_self _ _) rfl) (lt_asymm hlt)

/-- C3 (amended): every list produced by `blend_scores` or `rrf_blend` is
sorted descending by fused score; equal-score entries keep their pre-sort
(stable) order, with no document-id tie-break. -/
theorem fused_sorted_desc (bm25 vec : List (String × ℚ)) (w_bm25 w_vec k : ℚ) :
    (blend_scores bm25 vec w_bm25 w_vec).Pairwise (fun a b : Entry => b.2.1 ≤ a.2.1) ∧
    (rrf_blend bm25 vec k).Pairwise (fun a b : Entry => b.2.1 ≤ a.2.1) :=
  ⟨sortByScore_pairwise _, sortByScore_pairwise _⟩

/-! ### Claim C6 -/

/-- Doubling an entry's fused score, keeping id and components. -/
def dbl (e : Entry) : Entry := (e.1, 2 * e.2.1, e.2.2.1, e.2.2.2)

theorem scoreGE_dbl_iff (a b : Entry) : scoreGE (dbl a) (dbl b) ↔ scoreGE a b := by
  unfold scoreGE score dbl
  constructor
  · intro h
    exact le_of_mul_le_mul_left h two_pos
  · intro h
    exact mul_le_mul_of_nonneg_left h (by norm_num)

theorem orderedInsert_dbl (a : Entry) (l : List Entry) :
    List.orderedInsert scoreGE (dbl a) (l.map dbl) = (List.orderedInsert scoreGE a l).map dbl := by
  induction l with
  | nil => rfl
  | cons b l ih =>
      by_cases h : scoreGE a b
      · rw [List.map_cons]
        simp only [List.orderedInsert]
        rw [if_pos ((scoreGE_dbl_iff a b).mpr h), if_pos h, List.map_cons, List.map_cons]
      · rw [List.map_cons]
        simp only [List.orderedInsert]
        rw [if_neg (fun hc => h ((scoreGE_dbl_iff a b).mp hc)), if_neg h, List.map_cons, ih]

theorem sortByScore_dbl (l : List Entry) :
    sortByScore (l.map dbl) = (sortByScore l).map dbl := by
  unfold sortByScore
  induction l with
  | nil => rfl
  | cons a l ih =>
      simp only [List.map_cons, List.insertionSort]
      rw [ih, orderedInsert_dbl]

/-- C6: `blend_scores` is homogeneous in the weights: doubling both weights
doubles every fused score, keeps the id and the component scores, and keeps
the result order (the output is the pointwise-doubled original output). -/
theorem blend_scores_weight_doubling (bm25 vec : List (String × ℚ)) (w_bm25 w_vec : ℚ) :
    blend_scores bm25 vec (2 * w_bm25) (2 * w_vec)
      = (blend_scores bm25 vec w_bm25 w_vec).map
          (fun e : Entry => (e.1, 2 * e.2.1, e.2.2.1, e.2.2.2)) := by
  have hfun : (fun e : Entry => (e.1, 2 * e.2.1, e.2.2.1, e.2.2.2)) = dbl := rfl
  rw [hfun]
  unfold blend_scores
  rw [← sortByScore_dbl]
  congr 1
  rw [List.map_map]
  apply List.map_congr_left
  intro a _
  simp only [Function.comp_apply, dbl]
  refine Prod.ext rfl (Prod.ext ?_ rfl)
  show (2 * w_bm25) * dget (minmax_norm bm25) a 0 + (2 * w_vec) * dget (minmax_norm vec) a 0
      = 2 * (w_bm25 * dget (minmax_norm bm25) a 0 + w_vec * dget (minmax_norm vec) a 0)
  ring

/-! ### Claim C5 -/

theorem rrf_fold_congr (k : ℚ) :
    ∀ (l l' : List (String × ℚ)), l.map Prod.fst = l'.map Prod.fst →
      ∀ (rank : ℕ) (scores : Dict ℚ), rrf_fold k l rank scores = rrf_fold k l' rank scores := by
  intro l
  induction l with
  | nil =>
      intro l' h rank scores
      cases l' with
      | nil => rfl
      | cons q l'' => simp at h
  | cons p l ih =>
      intro l' h rank scores
      cases l' with
      | nil => simp at h
      | cons q l'' =>
          obtain ⟨pid, ps⟩ := p
          obtain ⟨qid, qs⟩ := q
          simp only [List.map_cons, List.cons.injEq] at h
          simp only [rrf_fold]
          rw [show pid = qid from h.1]
          exact ih l'' h.2 (rank + 1) _

/-- C5: RRF fusion is scale-invariant — it depends only on the id sequences
(rank orders) of its inputs, not on the raw scores: replacing either input's
scores while keeping the same id sequence leaves the RRF output unchanged. -/
theorem rrf_blend_scale_invariant (bm25 bm25' vec vec' : List (String × ℚ)) (k : ℚ)
    (h1 : bm25.map Prod.fst = bm25'.map Prod.fst)
    (h2 : vec.map Prod.fst = vec'.map Prod.fst) :
    rrf_blend bm25 vec k = rrf_blend bm25' vec' k := by
  unfold rrf_blend
  rw [rrf_fold_congr k bm25 bm25' h1 1 [], rrf_fold_congr k vec vec' h2 1 _]

/-- Witness for C5: rescaling both raw-score lists leaves the RRF output
unchanged. -/
theorem rrf_blend_scale_invariant_witness :
    rrf_blend [("x", 5)] [("y", 1)] 60 = rrf_blend [("x", 7)] [("y", 100)] 60 :=
  rrf_blend_scale_invariant [("x", 5)] [("x", 7)] [("y", 1)] [("y", 100)] 60 rfl rfl

/-! ### Claim C4 -/

theorem rrf_fold_dget_not_mem (k : ℚ) :
    ∀ (l : List (String × ℚ)) (a : String) (rank : ℕ) (scores : Dict ℚ) (w : ℚ),
      a ∉ l.map Prod.fst →
      dget (rrf_fold k l rank scores) a w = dget scores a w := by
  intro l
  induction l with
  | nil => intro a rank scores w _; rfl
  | cons p l ih =>
      intro a rank scores w h
      obtain ⟨pid, ps⟩ := p
      simp only [List.map_cons, List.mem_cons] at h
      push_neg at h
      simp only [rrf_fold]
      rw [ih _ _ _ _ h.2, dget_dictInsert, if_neg h.1]

theorem rrf_fold_dget_at_rank (k : ℚ) (a : String) :
    ∀ (pre : List (String × ℚ)) (s : ℚ) (post : List (String × ℚ)) (rank : ℕ)
      (scores : Dict ℚ),
      ((pre ++ (a, s) :: post).map Prod.fst).Nodup →
      dget (rrf_fold k (pre ++ (a, s) :: post) rank scores) a 0
        = dget scores a 0 + 1 / (k + ((rank + pre.length : ℕ) : ℚ)) := by
  intro pre
  induction pre with
  | nil =>
      intro s post rank scores hnd
      simp only [List.nil_append, List.map_cons, List.nodup_cons] at hnd
      simp only [List.nil_append, rrf_fold]
      rw [rrf_fold_dget_not_mem k post a _ _ _ hnd.1, dget_dictInsert, if_pos rfl]
      norm_num
  | cons p pre ih =>
      intro s post rank scores hnd
      obtain ⟨pid, ps⟩ := p
      simp only [List.cons_append, List.map_cons, List.nodup_cons] at hnd
      have hpa : pid ≠ a := by
        intro h
        refine hnd.1 ?_
        rw [h]
        simp
      simp only [List.cons_append, rrf_fold, List.append_eq]
      rw [ih s post (rank + 1) _ hnd.2, dget_dictInsert, if_neg (fun h => hpa h.symm)]
      simp only [List.length_cons]
      push_cast
      ring

theorem rrf_fold_nodup (k : ℚ) :
    ∀ (l : List (String × ℚ)) (rank : ℕ) (scores : Dict ℚ),
      (dkeys scores).Nodup → (dkeys (rrf_fold k l rank scores)).Nodup := by
  intro l
  induction l with
  | nil => intro rank scores h; exact h
  | cons p l ih =>
      intro rank scores h
      obtain ⟨pid, ps⟩ := p
      simp only [rrf_fold]
      exact ih _ _ (dkeys_nodup_dictInsert _ _ h)

theorem rrf_blend_entry {bm25 vec : List (String × ℚ)} {k : ℚ} {e : Entry}
    (he : e ∈ rrf_blend bm25 vec k) :
    e.2.1 = dget (rrf_fold k vec 1 (rrf_fold k bm25 1 [])) e.1 0 := by
  unfold rrf_blend at he
  rcases List.mem_map.mp (mem_sortByScore.mp he) with ⟨p, hp, hfe⟩
  have hnd : (dkeys (rrf_fold k vec 1 (rrf_fold k bm25 1 []))).Nodup :=
    rrf_fold_nodup k vec 1 _ (rrf_fold_nodup k bm25 1 [] (by simp [dkeys]))
  rw [← hfe]
  exact (dget_of_mem_nodup 0 hnd hp).symm

/-- C4: for duplicate-free inputs (and a non-negative `k`, so the Python `int`
arithmetic never divides by zero), the RRF score of a document at 1-based rank
`pre.length + 1` in each list where it occurs is exactly the sum of the
corresponding `1 / (k + rank)` terms: both lists give two terms, a single list
gives the single term. -/
theorem rrf_blend_rank_scores (bm25 vec : List (String × ℚ)) (k : ℚ) (hk : 0 ≤ k)
    (h1 : (bm25.map Prod.fst).Nodup) (h2 : (vec.map Prod.fst).Nodup)
    (e : Entry) (he : e ∈ rrf_blend bm25 vec k) :
    (∀ pre1 s1 post1 pre2 s2 post2,
        bm25 = pre1 ++ (e.1, s1) :: post1 → vec = pre2 ++ (e.1, s2) :: post2 →
        e.2.1 = 1 / (k + ((pre1.length + 1 : ℕ) : ℚ))
            + 1 / (k + ((pre2.length + 1 : ℕ) : ℚ))) ∧
    (∀ pre1 s1 post1, bm25 = pre1 ++ (e.1, s1) :: post1 → e.1 ∉ vec.map Prod.fst →
        e.2.1 = 1 / (k + ((pre1.length + 1 : ℕ) : ℚ))) ∧
    (∀ pre2 s2 post2, e.1 ∉ bm25.map Prod.fst → vec = pre2 ++ (e.1, s2) :: post2 →
        e.2.1 = 1 / (k + ((pre2.length + 1 : ℕ) : ℚ))) := by
  have hval := rrf_blend_entry he
  refine ⟨?_, ?_, ?_⟩
  · intro pre1 s1 post1 pre2 s2 post2 hb hv
    subst hb
    subst hv
    rw [hval, rrf_fold_dget_at_rank k e.1 pre2 s2 post2 1 _ h2,
      rrf_fold_dget_at_rank k e.1 pre1 s1 post1 1 [] h1, dget_nil]
    rw [show (1 + pre1.length) = pre1.length + 1 from Nat.add_comm 1 _,
      show (1 + pre2.length) = pre2.length + 1 from Nat.add_comm 1 _]
    ring
  · intro pre1 s1 post1 hb hnv
    subst hb
    rw [hval, rrf_fold_dget_not_mem k vec e.1 1 _ 0 hnv,
      rrf_fold_dget_at_rank k e.1 pre1 s1 post1 1 [] h1, dget_nil]
    rw [show (1 + pre1.length) = pre1.length + 1 from Nat.add_comm 1 _]
    ring
  · intro pre2 s2 post2 hnb hv
    subst hv
    rw [hval, rrf_fold_dget_at_rank k e.1 pre2 s2 post2 1 _ h2,
      rrf_fold_dget_not_mem k bm25 e.1 1 [] 0 hnb, dget_nil]
    rw [show (1 + pre2.length) = pre2.length + 1 from Nat.add_comm 1 _]
    ring

/-- Witness for C4 at `bm25 = [("a",1),("b",1/2)]`, `vec = [("b",3)]`, `k = 60`:
`"b"` sits at rank 2 lexically and rank 1 vectorially, and its RRF score is
`1/(60+2) + 1/(60+1)`. -/
theorem rrf_blend_rank_scores_witness :
    (("b", (1 : ℚ)/62 + 1/61, (0 : ℚ), (0 : ℚ)) : Entry).2.1
      = 1 / (60 + (([("a", (1 : ℚ))].length + 1 : ℕ) : ℚ))
        + 1 / (60 + ((([] : List (String × ℚ)).length + 1 : ℕ) : ℚ)) :=
  (rrf_blend_rank_scores [("a", 1), ("b", 1/2)] [("b", 3)] 60 (by norm_num)
    (by decide) (by decide) ("b", 1/62 + 1/61, 0, 0)
    (by norm_num [rrf_blend, rrf_fold, sortByScore, dictInsert, dget_cons, dget_nil,
      List.insertionSort, List.orderedInsert, scoreGE, score,
      (by decide : ¬ ("a" = "b")), (by decide : ¬ ("b" = "a"))])).1
    [("a", 1)] (1/2) [] [] 3 [] rfl rfl

/-- Witness for C10 at `bm25 = [("a",1)]`, `vec = []`, weights `1, 1`:
the single output entry `("a", 1, 1, 0)` has its blended score in `[0, 1+1]`. -/
theorem blend_scores_bounded_witness :
    (0 : ℚ) ≤ (("a", (1 : ℚ), (1 : ℚ), (0 : ℚ)) : Entry).2.1 ∧
    (("a", (1 : ℚ), (1 : ℚ), (0 : ℚ)) : Entry).2.1 ≤ 1 + 1 :=
  blend_scores_bounded [("a", 1)] [] 1 1 (by norm_num) (by norm_num) ("a", 1, 1, 0)
    (by norm_num [blend_scores, sortByScore, minmax_norm, loOf, hiOf, qmin, qmax,
      buildDict, dictInsert, dget_cons, dget_nil, dkeys,
      List.insertionSort, List.orderedInsert])

/-! ### Claim C7 -/

/-- C7: when the relevance-scorer capability is unavailable (the optional
dependency failed to import), `rerank` returns its input list unchanged —
same entries, same scores, same order — instead of raising. -/
theorem rerank_unavailable_id (blended : List Entry) (query : String) (docs : Dict String) :
    rerank blended query docs none = blended := rfl

/-! ### Claim C9 -/

theorem reciprocal_rank_not_found {relevant : List String} :
    ∀ (ids : List String) (idx : ℕ), (∀ x ∈ ids, x ∉ relevant) →
      reciprocal_rank relevant ids idx = 0 := by
  intro ids
  induction ids with
  | nil => intro idx _; rfl
  | cons doc_id rest ih =>
      intro idx h
      rw [reciprocal_rank, if_neg (h doc_id (List.mem_cons_self _ _))]
      exact ih (idx + 1) (fun x hx => h x (List.mem_cons_of_mem _ hx))

theorem reciprocal_rank_found {relevant : List String} {doc_id : String}
    (hrel : doc_id ∈ relevant) :
    ∀ (pre : List String) (post : List String) (idx : ℕ), (∀ x ∈ pre, x ∉ relevant) →
      reciprocal_rank relevant (pre ++ doc_id :: post) idx
        = 1 / ((idx + pre.length : ℕ) : ℚ) := by
  intro pre
  induction pre with
  | nil =>
      intro post idx _
      simp only [List.nil_append, reciprocal_rank, if_pos hrel, List.length_nil,
        Nat.add_zero]
  | cons x pre ih =>
      intro post idx h
      simp only [List.cons_append, reciprocal_rank, List.append_eq,
        if_neg (h x (List.mem_cons_self _ _))]
      rw [ih post (idx + 1) (fun y hy => h y (List.mem_cons_of_mem _ hy))]
      congr 2
      simp only [List.length_cons]
      omega

theorem reciprocal_rank_pos_iff {relevant : List String} :
    ∀ (ids : List String) (idx : ℕ), 1 ≤ idx →
      (0 < reciprocal_rank relevant ids idx ↔ ∃ x ∈ ids, x ∈ relevant) := by
  intro ids
  induction ids with
  | nil => intro idx _; simp [reciprocal_rank]
  | cons doc_id rest ih =>
      intro idx hidx
      by_cases h : doc_id ∈ relevant
      · rw [reciprocal_rank, if_pos h]
        have hpos : 0 < 1 / ((idx : ℚ)) := by
          apply div_pos one_pos
          exact_mod_cast Nat.lt_of_lt_of_le Nat.zero_lt_one hidx
        simp only [List.mem_cons]
        exact ⟨fun _ => ⟨doc_id, Or.inl rfl, h⟩, fun _ => hpos⟩
      · rw [reciprocal_rank, if_neg h]
        rw [ih (idx + 1) (Nat.le_succ_of_le hidx)]
        simp only [List.mem_cons]
        constructor
        · rintro ⟨x, hx, hxr⟩
          exact ⟨x, Or.inr hx, hxr⟩
        · rintro ⟨x, hx | hx, hxr⟩
          · exact absurd (hx ▸ hxr) h
          · exact ⟨x, hx, hxr⟩

theorem foldl_add_eq_sum : ∀ (l : List ℚ) (a : ℚ), l.foldl (· + ·) a = a + l.sum := by
  intro l
  induction l with
  | nil => intro a; simp
  | cons b l ih =>
      intro a
      rw [List.foldl_cons, ih, List.sum_cons]
      ring

/-- C9: for a non-empty labeled query set, `cmd_eval` computes MRR as the mean
of the per-query reciprocal ranks and Recall\@N as the fraction of queries with
at least one relevant id in the truncated result list; the reciprocal rank of a
query is `1/(pre.length+1)` when the first relevant id appears after the
irrelevant prefix `pre` of the truncated id list, `0` when no relevant id
appears there, and a query with an empty relevant set contributes `0` to both
the reciprocal-rank total and the hit count (the denominator is always the
query count, so nothing divides by zero). -/
theorem cmd_eval_metrics_spec (queries : List (List String × List Entry)) (top_n : ℕ)
    (hq : queries ≠ []) :
    ((cmd_eval_metrics queries top_n).1
        = (queries.map
            (fun q => reciprocal_rank q.1 ((q.2.take top_n).map Prod.fst) 1)).sum
          / (queries.length : ℚ)) ∧
    ((cmd_eval_metrics queries top_n).2
        = ((queries.countP
            (fun q => (q.2.take top_n).any (fun e => decide (e.1 ∈ q.1)))) : ℚ)
          / (queries.length : ℚ)) ∧
    (∀ (relevant : List String) (pre post : List String) (doc_id : String),
        doc_id ∈ relevant → (∀ x ∈ pre, x ∉ relevant) →
        reciprocal_rank relevant (pre ++ doc_id :: post) 1
          = 1 / ((pre.length + 1 : ℕ) : ℚ)) ∧
    (∀ (relevant ids : List String), (∀ x ∈ ids, x ∉ relevant) →
        reciprocal_rank relevant ids 1 = 0) ∧
    (∀ q ∈ queries, q.1 = [] →
        reciprocal_rank q.1 ((q.2.take top_n).map Prod.fst) 1 = 0 ∧
        (q.2.take top_n).any (fun e => decide (e.1 ∈ q.1)) = false) := by
  refine ⟨?_, ?_, ?_, ?_, ?_⟩
  · show ((queries.map
        (fun q => reciprocal_rank q.1 ((q.2.take top_n).map Prod.fst) 1)).foldl (· + ·) 0)
          / (queries.length : ℚ) = _
    rw [foldl_add_eq_sum, zero_add]
  · show (((queries.map
        (fun q => reciprocal_rank q.1 ((q.2.take top_n).map Prod.fst) 1)).filter
          (fun rr => decide (0 < rr))).length : ℚ) / (queries.length : ℚ) = _
    congr 2
    rw [← List.countP_eq_length_filter, List.countP_map]
    apply List.countP_congr
    intro q _
    simp only [Function.comp_apply, decide_eq_true_eq, List.any_eq_true]
    rw [reciprocal_rank_pos_iff _ 1 (le_refl 1)]
    constructor
    · rintro ⟨x, hx, hxr⟩
      rcases List.mem_map.mp hx with ⟨e, he, hfe⟩
      refine ⟨e, he, ?_⟩
      rw [hfe]
      exact hxr
    · rintro ⟨e, he, hdec⟩
      exact ⟨e.1, List.mem_map_of_mem Prod.fst he, hdec⟩
  · intro relevant pre post doc_id hrel hpre
    rw [reciprocal_rank_found hrel pre post 1 hpre]
    congr 2
    omega
  · intro relevant ids h
    exact reciprocal_rank_not_found ids 1 h
  · intro q _ hempty
    constructor
    · exact reciprocal_rank_not_found _ 1 (by simp [hempty])
    · rw [List.any_eq_false]
      intro e _
      simp [hempty]

/-- Witness for C9 on two queries (one hit at rank 1, one with an empty
relevant set): MRR and Recall are both `1/2`. -/
theorem cmd_eval_metrics_spec_witness :
    (cmd_eval_metrics [(["a"], [("a", 1, 0, 0)]), ([], [("b", 1, 0, 0)])] 10).1 = 1/2 ∧
    (cmd_eval_metrics [(["a"], [("a", 1, 0, 0)]), ([], [("b", 1, 0, 0)])] 10).2 = 1/2 := by
  have h := cmd_eval_metrics_spec [(["a"], [("a", 1, 0, 0)]), ([], [("b", 1, 0, 0)])] 10
    (by simp)
  refine ⟨h.1.trans ?_, h.2.1.trans ?_⟩
  · norm_num [reciprocal_rank, List.take]
  · norm_num [List.countP, List.countP.go, List.take]

/-! ### Claim C8 -/

/-- C8 (code bug in `app.py`): at a concrete input with `blend = rrf` and
reranking enabled, the CLI pipeline (`cmd_search`) applies the reranker to the
full fused list before truncation, but the Streamlit Search page
(`app.py`, where `if use_rerank:` is nested inside the weighted branch) returns
the RRF output un-reranked, so the two pipelines disagree. -/
theorem app_rrf_skips_rerank :
    app_search_ranked [("a", (1 : ℚ)), ("b", 1/2)] [] .rrf (6/10) (4/10) 60 true "q"
        [("a", "alpha"), ("b", "bravo")]
        (some (fun _ t => if t = "bravo" then 1 else 0)) 10
      = (rrf_blend [("a", (1 : ℚ)), ("b", 1/2)] [] 60).take 10 ∧
    cmd_search_ranked [("a", (1 : ℚ)), ("b", 1/2)] [] .rrf (6/10) (4/10) 60 true "q"
        [("a", "alpha"), ("b", "bravo")]
        (some (fun _ t => if t = "bravo" then 1 else 0)) 10
      = (rerank (rrf_blend [("a", (1 : ℚ)), ("b", 1/2)] [] 60) "q"
          [("a", "alpha"), ("b", "bravo")]
          (some (fun _ t => if t = "bravo" then 1 else 0))).take 10 ∧
    app_search_ranked [("a", (1 : ℚ)), ("b", 1/2)] [] .rrf (6/10) (4/10) 60 true "q"
        [("a", "alpha"), ("b", "bravo")]
        (some (fun _ t => if t = "bravo" then 1 else 0)) 10
      ≠ cmd_search_ranked [("a", (1 : ℚ)), ("b", 1/2)] [] .rrf (6/10) (4/10) 60 true "q"
        [("a", "alpha"), ("b", "bravo")]
        (some (fun _ t => if t = "bravo" then 1 else 0)) 10 := by
  have hrrf : rrf_blend [("a", (1 : ℚ)), ("b", 1/2)] [] 60
      = [("a", 1/61, 0, 0), ("b", 1/62, 0, 0)] := by
    norm_num [rrf_blend, rrf_fold, sortByScore, dictInsert, dget_cons, dget_nil,
      List.insertionSort, List.orderedInsert, scoreGE, score,
      (by decide : ¬ ("a" = "b")), (by decide : ¬ ("b" = "a"))]
  have hrer : rerank [("a", (1 : ℚ)/61, 0, 0), ("b", 1/62, 0, 0)] "q"
        [("a", "alpha"), ("b", "bravo")]
        (some (fun _ t => if t = "bravo" then 1 else 0))
      = [("b", 1, 0, 0), ("a", 0, 0, 0)] := by
    norm_num [rerank, sortByScore, dget_cons, dget_nil,
      List.insertionSort, List.orderedInsert, scoreGE, score,
      (by decide : ¬ ("a" = "b")), (by decide : ¬ ("b" = "a")),
      (by decide : ¬ ("alpha" = "bravo"))]
  refine ⟨rfl, rfl, ?_⟩
  show (rrf_blend [("a", (1 : ℚ)), ("b", 1/2)] [] 60).take 10
      ≠ (rerank (rrf_blend [("a", (1 : ℚ)), ("b", 1/2)] [] 60) "q"
          [("a", "alpha"), ("b", "bravo")]
          (some (fun _ t => if t = "bravo" then 1 else 0))).take 10
  rw [hrrf, hrer, List.take_of_length_le (by norm_num),
    List.take_of_length_le (by norm_num)]
  intro h
  simp only [List.cons.injEq, Prod.mk.injEq] at h
  exact absurd h.1.1 (by decide)

end HybridSearch
